import Mathlib

/-!
The extensible blocking queue of `queue.go`

A shallow embedding of `queueImpl` (package `main`, file `queue.go`) and the
properties of its five methods.

Modelling conventions.

* A buffered channel `chan struct{}` carries no data, so it is represented by
  its capacity `cap(ch)` and the number of buffered elements `len(ch)`.
* The methods are run by one goroutine at a time.  A call either completes
  with a new queue, blocks (a send on a full buffer, a receive on an empty
  one, with no other goroutine to unblock it), or panics (index out of range,
  `make` with a negative size).
* Go `int` values are unbounded integers; the width of `int` plays no role in
  the properties below.
* `close(q.channels[0])` in `cleanupChannels` is immediately followed by the
  removal of that channel from the slice, so no later call addresses a closed
  channel and the closed flag is not represented.
-/

namespace Nckl

/-- Result of running a call: completed with a value, blocked, or panicked. -/
inductive Outcome (α : Type) where
  | done (a : α)
  | blocked
  | panics
deriving DecidableEq, Repr

/-- Sequencing of calls: a blocked or panicked call stops the goroutine. -/
def Outcome.bind {α β : Type} (x : Outcome α) (f : α → Outcome β) : Outcome β :=
  match x with
  | .done a => f a
  | .blocked => .blocked
  | .panics => .panics

/-- A buffered `chan struct{}`: `cap(ch)` and `len(ch)`. -/
structure Chan where
  cap : Nat
  len : Nat
deriving DecidableEq, Repr

/-- The expression `make(chan struct{}, size)`: panics on a negative size. -/
def makeChan (size : Int) : Outcome Chan :=
  if size < 0 then .panics else .done ⟨size.toNat, 0⟩

/-- The statement `ch <- struct{}{}`: completes iff the buffer has room. -/
def send (ch : Chan) : Outcome Chan :=
  if ch.len < ch.cap then .done ⟨ch.cap, ch.len + 1⟩ else .blocked

/-- The statement `<-ch`: completes iff the buffer holds an element. -/
def recv (ch : Chan) : Outcome Chan :=
  if 0 < ch.len then .done ⟨ch.cap, ch.len - 1⟩ else .blocked

/-- The struct `queueImpl`: the slice of channels, oldest first. -/
structure queueImpl where
  channels : List Chan
deriving DecidableEq, Repr

/-- The method `Push`: `q.channels[len(q.channels)-1] <- struct{}{}`. -/
def Push (q : queueImpl) : Outcome queueImpl :=
  if q.channels.length = 0 then .panics
  else
    match q.channels[q.channels.length - 1]? with
    | none => .panics
    | some ch =>
      (send ch).bind fun ch1 => .done ⟨q.channels.set (q.channels.length - 1) ch1⟩

/-- The method `cleanupChannels`: drops the first channel when there is more
than one channel and the first one is empty. -/
def cleanupChannels (q : queueImpl) : queueImpl :=
  match q.channels with
  | [] => q
  | ch :: rest => if 1 < (ch :: rest).length ∧ ch.len = 0 then ⟨rest⟩ else q

/-- The method `Pop`: `<-q.channels[0]` followed by `q.cleanupChannels()`. -/
def Pop (q : queueImpl) : Outcome queueImpl :=
  match q.channels with
  | [] => .panics
  | ch :: rest => (recv ch).bind fun ch1 => .done (cleanupChannels ⟨ch1 :: rest⟩)

/-- The method `Size`: the loop `size += len(ch)` over all channels. -/
def Size (q : queueImpl) : Int :=
  q.channels.foldl (fun size ch => size + (ch.len : Int)) 0

/-- The method `Capacity`: `cap(q.channels[len(q.channels)-1])`. -/
def Capacity (q : queueImpl) : Outcome Int :=
  if q.channels.length = 0 then .panics
  else
    match q.channels[q.channels.length - 1]? with
    | none => .panics
    | some ch => .done (ch.cap : Int)

/-- The method `SetCapacity`: appends a fresh channel when the slice is empty
or the current capacity differs, then runs `cleanupChannels`. -/
def SetCapacity (q : queueImpl) (newCapacity : Int) : Outcome queueImpl :=
  (if q.channels.length = 0 then Outcome.done true
   else (Capacity q).bind fun cur => .done (decide (cur ≠ newCapacity))).bind fun grow =>
  (if grow then (makeChan newCapacity).bind fun ch => .done ⟨q.channels ++ [ch]⟩
   else Outcome.done q).bind fun q1 =>
  .done (cleanupChannels q1)

/-- The function `CreateQueue`: an empty slice followed by `SetCapacity`. -/
def CreateQueue (initialCapacity : Int) : Outcome queueImpl :=
  SetCapacity ⟨[]⟩ initialCapacity

/-- A call of one of the three state-changing methods. -/
inductive Call where
  | push
  | pop
  | setCapacity (n : Int)
deriving DecidableEq, Repr

/-- Run one call. -/
def step (c : Call) (q : queueImpl) : Outcome queueImpl :=
  match c with
  | .push => Push q
  | .pop => Pop q
  | .setCapacity n => SetCapacity q n

/-- Run a sequence of calls, one after the other. -/
def run (cs : List Call) (q : queueImpl) : Outcome queueImpl :=
  match cs with
  | [] => .done q
  | c :: rest => (step c q).bind (run rest)

/-- Run `CreateQueue(c)` and then a sequence of calls. -/
def runFrom (c : Int) (cs : List Call) : Outcome queueImpl :=
  (CreateQueue c).bind (run cs)

/-- Every `SetCapacity(n)` call of the sequence has `n ≥ 0`. -/
def nonnegArgs (cs : List Call) : Bool :=
  cs.all fun c =>
    match c with
    | .setCapacity n => decide (0 ≤ n)
    | _ => true

/-- A queue state reached from `CreateQueue(c)`, `c ≥ 0`, by a sequence of
completed `Push`, `Pop` and `SetCapacity(n)`, `n ≥ 0`, calls. -/
def Reachable (q : queueImpl) : Prop :=
  ∃ (c : Int) (cs : List Call), 0 ≤ c ∧ nonnegArgs cs = true ∧ runFrom c cs = .done q

/-- Sum of the capacities of the channels in the slice. -/
def totalCapacity (q : queueImpl) : Int :=
  (q.channels.map fun ch => (ch.cap : Int)).sum

/-- Tokens held by the channels other than the newest one. -/
def olderTokens (q : queueImpl) : Int :=
  (q.channels.dropLast.map fun ch => (ch.len : Int)).sum

/-- Every `SetCapacity(n)` call of the sequence requests at least the capacity
current at the time of the call. -/
def growOnly (cs : List Call) (q : queueImpl) : Bool :=
  match cs with
  | [] => true
  | .setCapacity n :: rest =>
    (match Capacity q with
     | .done cur => decide (cur ≤ n)
     | _ => true) &&
    (match SetCapacity q n with
     | .done q1 => growOnly rest q1
     | _ => true)
  | c :: rest =>
    match step c q with
    | .done q1 => growOnly rest q1
    | _ => true

/-- The slice is not empty and no channel holds more than its capacity. -/
def WellFormed (q : queueImpl) : Prop :=
  q.channels ≠ [] ∧ ∀ ch ∈ q.channels, ch.len ≤ ch.cap

/-! ## Channels and the slice -/

theorem list_eq_concat {α : Type} (l : List α) (h : l ≠ []) :
    ∃ init a, l = init ++ [a] :=
  ⟨l.dropLast, l.getLast h, (List.dropLast_append_getLast h).symm⟩

theorem getElem?_last (init : List Chan) (ch : Chan) :
    (init ++ [ch])[(init ++ [ch]).length - 1]? = some ch := by
  simp

theorem set_last (init : List Chan) (ch ch1 : Chan) :
    (init ++ [ch]).set ((init ++ [ch]).length - 1) ch1 = init ++ [ch1] := by
  simp

theorem Push_concat (init : List Chan) (ch : Chan) :
    Push ⟨init ++ [ch]⟩ =
      if ch.len < ch.cap then .done ⟨init ++ [⟨ch.cap, ch.len + 1⟩]⟩ else .blocked := by
  unfold Push
  simp only [getElem?_last, set_last]
  simp only [List.length_append, List.length_singleton, Nat.add_one_ne_zero, if_false]
  unfold send
  split <;> rfl

theorem Capacity_concat (init : List Chan) (ch : Chan) :
    Capacity ⟨init ++ [ch]⟩ = .done (ch.cap : Int) := by
  unfold Capacity
  simp only [getElem?_last]
  simp

theorem Size_eq_sum (q : queueImpl) :
    Size q = (q.channels.map fun ch => (ch.len : Int)).sum := by
  unfold Size
  have key : ∀ (l : List Chan) (a : Int),
      l.foldl (fun size ch => size + (ch.len : Int)) a
        = a + (l.map fun ch => (ch.len : Int)).sum := by
    intro l
    induction l with
    | nil => intro a; simp
    | cons ch rest ih => intro a; simp [ih, add_assoc]
  simpa using key q.channels 0

theorem bind_eq_done {α β : Type} {x : Outcome α} {f : α → Outcome β} {b : β}
    (h : x.bind f = .done b) : ∃ a, x = .done a ∧ f a = .done b := by
  cases x with
  | done a => exact ⟨a, rfl, h⟩
  | blocked => simp [Outcome.bind] at h
  | panics => simp [Outcome.bind] at h

theorem Pop_cons (c0 : Chan) (rest : List Chan) :
    Pop ⟨c0 :: rest⟩ =
      if 0 < c0.len then .done (cleanupChannels ⟨⟨c0.cap, c0.len - 1⟩ :: rest⟩)
      else .blocked := by
  show (recv c0).bind (fun ch1 => Outcome.done (cleanupChannels ⟨ch1 :: rest⟩)) = _
  unfold recv
  split <;> rfl

theorem cleanupChannels_cons (c0 : Chan) (rest : List Chan) :
    cleanupChannels ⟨c0 :: rest⟩ =
      if rest ≠ [] ∧ c0.len = 0 then ⟨rest⟩ else ⟨c0 :: rest⟩ := by
  show (if 1 < (c0 :: rest).length ∧ c0.len = 0 then (⟨rest⟩ : queueImpl) else ⟨c0 :: rest⟩) = _
  have hl : 1 < (c0 :: rest).length ↔ rest ≠ [] := by
    cases rest <;> simp
  simp only [hl]

theorem cleanupChannels_cases (q : queueImpl) :
    (cleanupChannels q).channels = q.channels ∨
      ∃ c0, c0.len = 0 ∧ q.channels = c0 :: (cleanupChannels q).channels ∧
        (cleanupChannels q).channels ≠ [] := by
  obtain ⟨l⟩ := q
  cases l with
  | nil => left; rfl
  | cons c0 rest =>
    rw [cleanupChannels_cons]
    by_cases hc : rest ≠ [] ∧ c0.len = 0
    · right
      rw [if_pos hc]
      exact ⟨c0, hc.2, rfl, hc.1⟩
    · left
      rw [if_neg hc]

theorem cleanupChannels_concat (init : List Chan) (ch : Chan) :
    ∃ init1, cleanupChannels ⟨init ++ [ch]⟩ = ⟨init1 ++ [ch]⟩ ∧
      (init1 = init ∨ ∃ c0, c0.len = 0 ∧ init = c0 :: init1) := by
  cases init with
  | nil => exact ⟨[], by simp [cleanupChannels_cons], Or.inl rfl⟩
  | cons c0 rest =>
    by_cases hc : c0.len = 0
    · exact ⟨rest, by simp [cleanupChannels_cons, hc], Or.inr ⟨c0, hc, rfl⟩⟩
    · exact ⟨c0 :: rest, by simp [cleanupChannels_cons, hc], Or.inl rfl⟩

theorem cleanupChannels_single (ch : Chan) : cleanupChannels ⟨[ch]⟩ = ⟨[ch]⟩ := by
  simp [cleanupChannels_cons]

theorem Size_cleanupChannels (q : queueImpl) : Size (cleanupChannels q) = Size q := by
  rw [Size_eq_sum, Size_eq_sum]
  rcases cleanupChannels_cases q with h | ⟨c0, h0, h, _⟩
  · rw [h]
  · rw [h]
    simp [h0]

theorem WellFormed_cleanupChannels (q : queueImpl) (h : WellFormed q) :
    WellFormed (cleanupChannels q) := by
  rcases cleanupChannels_cases q with e | ⟨c0, _, e, hne⟩
  · exact ⟨by rw [e]; exact h.1, by rw [e]; exact h.2⟩
  · refine ⟨hne, fun ch hch => h.2 ch ?_⟩
    rw [e]
    exact List.mem_cons_of_mem _ hch

theorem makeChan_nonneg (n : Int) (hn : 0 ≤ n) : makeChan n = .done ⟨n.toNat, 0⟩ := by
  unfold makeChan
  rw [if_neg (by omega)]

theorem SetCapacity_nil (n : Int) (hn : 0 ≤ n) :
    SetCapacity ⟨[]⟩ n = .done ⟨[⟨n.toNat, 0⟩]⟩ := by
  simp [SetCapacity, Outcome.bind, makeChan_nonneg n hn, cleanupChannels]

theorem SetCapacity_concat (init : List Chan) (ch : Chan) (n : Int) (hn : 0 ≤ n) :
    SetCapacity ⟨init ++ [ch]⟩ n =
      .done (cleanupChannels
        (if (ch.cap : Int) = n then ⟨init ++ [ch]⟩ else ⟨init ++ [ch] ++ [⟨n.toNat, 0⟩]⟩)) := by
  unfold SetCapacity
  rw [Capacity_concat]
  by_cases hc : (ch.cap : Int) = n
  · simp [Outcome.bind, hc]
  · simp [Outcome.bind, hc, makeChan_nonneg n hn]

theorem SetCapacity_neg (q : queueImpl) (n : Int) (hn : n < 0) :
    SetCapacity q n = .panics := by
  by_cases hq : q.channels = []
  · simp [SetCapacity, Outcome.bind, makeChan, hq, hn]
  · obtain ⟨init, ch, e⟩ := list_eq_concat q.channels hq
    have hq2 : q = ⟨init ++ [ch]⟩ := by cases q; simp_all
    subst hq2
    unfold SetCapacity
    rw [Capacity_concat]
    have hc : (ch.cap : Int) ≠ n := by omega
    simp [Outcome.bind, hc, makeChan, hn]

theorem CreateQueue_nonneg (c : Int) (hc : 0 ≤ c) :
    CreateQueue c = .done ⟨[⟨c.toNat, 0⟩]⟩ :=
  SetCapacity_nil c hc

theorem queue_eq_concat (q : queueImpl) (h : q.channels ≠ []) :
    ∃ init ch, q = ⟨init ++ [ch]⟩ := by
  obtain ⟨init, ch, e⟩ := list_eq_concat q.channels h
  exact ⟨init, ch, by cases q; simp_all⟩

/-! ## Well-formedness is preserved by every call -/

theorem WellFormed_Push (q q1 : queueImpl) (h : WellFormed q) (hp : Push q = .done q1) :
    WellFormed q1 := by
  obtain ⟨init, ch, rfl⟩ := queue_eq_concat q h.1
  rw [Push_concat] at hp
  by_cases hlt : ch.len < ch.cap
  · rw [if_pos hlt] at hp
    injection hp with hp
    subst hp
    refine ⟨by simp, ?_⟩
    intro c hc
    rcases List.mem_append.mp hc with hc | hc
    · exact h.2 c (List.mem_append.mpr (Or.inl hc))
    · rw [List.mem_singleton] at hc
      subst hc
      exact hlt
  · rw [if_neg hlt] at hp
    cases hp

theorem WellFormed_Pop (q q1 : queueImpl) (h : WellFormed q) (hp : Pop q = .done q1) :
    WellFormed q1 := by
  obtain ⟨l⟩ := q
  cases l with
  | nil => exact absurd rfl h.1
  | cons c0 rest =>
    rw [Pop_cons] at hp
    by_cases hpos : 0 < c0.len
    · rw [if_pos hpos] at hp
      injection hp with hp
      subst hp
      apply WellFormed_cleanupChannels
      refine ⟨by simp, ?_⟩
      intro c hc
      rcases List.mem_cons.mp hc with hc | hc
      · subst hc
        have := h.2 c0 (List.mem_cons_self _ _)
        show c0.len - 1 ≤ c0.cap
        omega
      · exact h.2 c (List.mem_cons_of_mem _ hc)
    · rw [if_neg hpos] at hp
      cases hp

theorem WellFormed_SetCapacity (q q1 : queueImpl) (n : Int) (h : WellFormed q)
    (hp : SetCapacity q n = .done q1) : WellFormed q1 := by
  by_cases hn : n < 0
  · rw [SetCapacity_neg q n hn] at hp
    cases hp
  · obtain ⟨init, ch, rfl⟩ := queue_eq_concat q h.1
    rw [SetCapacity_concat init ch n (by omega)] at hp
    injection hp with hp
    subst hp
    apply WellFormed_cleanupChannels
    by_cases hc : (ch.cap : Int) = n
    · rw [if_pos hc]
      exact h
    · rw [if_neg hc]
      refine ⟨by simp, ?_⟩
      intro c hcm
      rcases List.mem_append.mp hcm with hcm | hcm
      · exact h.2 c hcm
      · rw [List.mem_singleton] at hcm
        subst hcm
        exact Nat.zero_le _

theorem WellFormed_step (c : Call) (q q1 : queueImpl) (h : WellFormed q)
    (hp : step c q = .done q1) : WellFormed q1 := by
  cases c with
  | push => exact WellFormed_Push q q1 h hp
  | pop => exact WellFormed_Pop q q1 h hp
  | setCapacity n => exact WellFormed_SetCapacity q q1 n h hp

theorem WellFormed_run (cs : List Call) :
    ∀ (q q1 : queueImpl), WellFormed q → run cs q = .done q1 → WellFormed q1 := by
  induction cs with
  | nil =>
    intro q q1 h hp
    injection hp with hp
    subst hp
    exact h
  | cons c rest ih =>
    intro q q1 h hp
    obtain ⟨q2, h2, hr⟩ := bind_eq_done hp
    exact ih q2 q1 (WellFormed_step c q q2 h h2) hr

theorem WellFormed_of_Reachable (q : queueImpl) (h : Reachable q) : WellFormed q := by
  obtain ⟨c, cs, hc, _, hr⟩ := h
  obtain ⟨q0, h0, hr⟩ := bind_eq_done hr
  rw [CreateQueue_nonneg c hc] at h0
  injection h0 with h0
  subst h0
  refine WellFormed_run cs _ q ⟨by simp, ?_⟩ hr
  intro ch hch
  rw [List.mem_singleton] at hch
  subst hch
  exact Nat.zero_le _

theorem sum_len_nonneg (l : List Chan) : 0 ≤ (l.map fun ch => (ch.len : Int)).sum := by
  induction l with
  | nil => simp
  | cons ch rest ih =>
    simp only [List.map_cons, List.sum_cons]
    omega

theorem sum_len_le_sum_cap (l : List Chan) (h : ∀ ch ∈ l, ch.len ≤ ch.cap) :
    (l.map fun ch => (ch.len : Int)).sum ≤ (l.map fun ch => (ch.cap : Int)).sum := by
  induction l with
  | nil => simp
  | cons ch rest ih =>
    simp only [List.map_cons, List.sum_cons]
    have h1 := h ch (List.mem_cons_self _ _)
    have h2 := ih (fun c hc => h c (List.mem_cons_of_mem _ hc))
    omega

/-! ## Runs of repeated calls -/

theorem run_append (a b : List Call) :
    ∀ q, run (a ++ b) q = (run a q).bind (run b) := by
  induction a with
  | nil => intro q; rfl
  | cons c rest ih =>
    intro q
    show (step c q).bind (run (rest ++ b)) = ((step c q).bind (run rest)).bind (run b)
    cases h : step c q with
    | done q1 => exact ih q1
    | blocked => rfl
    | panics => rfl

theorem run_cons (c : Call) (rest : List Call) (q : queueImpl) :
    run (c :: rest) q = (step c q).bind (run rest) := rfl

theorem run_single (c : Call) (q : queueImpl) : run [c] q = step c q := by
  show (step c q).bind (run []) = step c q
  cases step c q <;> rfl

theorem run_push_replicate (init : List Chan) (cap : Nat) :
    ∀ (k len : Nat), len + k ≤ cap →
      run (List.replicate k Call.push) ⟨init ++ [⟨cap, len⟩]⟩ =
        .done ⟨init ++ [⟨cap, len + k⟩]⟩ := by
  intro k
  induction k with
  | zero => intro len _; rfl
  | succ k ih =>
    intro len h
    rw [List.replicate_succ, run_cons]
    show (Push ⟨init ++ [⟨cap, len⟩]⟩).bind _ = _
    rw [Push_concat, if_pos (show len < cap by omega)]
    show run (List.replicate k Call.push) ⟨init ++ [⟨cap, len + 1⟩]⟩ = _
    rw [ih (len + 1) (by omega)]
    have e : len + 1 + k = len + (k + 1) := by omega
    rw [e]

theorem run_pop_replicate (rest : List Chan) (cap : Nat) :
    ∀ (k len : Nat), k < len →
      run (List.replicate k Call.pop) ⟨⟨cap, len⟩ :: rest⟩ =
        .done ⟨⟨cap, len - k⟩ :: rest⟩ := by
  intro k
  induction k with
  | zero => intro len _; rfl
  | succ k ih =>
    intro len h
    rw [List.replicate_succ, run_cons]
    show (Pop ⟨⟨cap, len⟩ :: rest⟩).bind _ = _
    rw [Pop_cons, if_pos (show 0 < len by omega), cleanupChannels_cons,
      if_neg (by simp only [not_and]; intro _; omega)]
    show run (List.replicate k Call.pop) ⟨⟨cap, len - 1⟩ :: rest⟩ = _
    rw [ih (len - 1) (by omega)]
    have e : len - 1 - k = len - (k + 1) := by omega
    rw [e]

theorem run_pop_replicate_single (cap : Nat) :
    ∀ (k len : Nat), k ≤ len →
      run (List.replicate k Call.pop) ⟨[⟨cap, len⟩]⟩ = .done ⟨[⟨cap, len - k⟩]⟩ := by
  intro k
  induction k with
  | zero => intro len _; rfl
  | succ k ih =>
    intro len h
    rw [List.replicate_succ, run_cons]
    show (Pop ⟨[⟨cap, len⟩]⟩).bind _ = _
    rw [Pop_cons, if_pos (show 0 < len by omega), cleanupChannels_single]
    show run (List.replicate k Call.pop) ⟨[⟨cap, len - 1⟩]⟩ = _
    rw [ih (len - 1) (by omega)]
    have e : len - 1 - k = len - (k + 1) := by omega
    rw [e]

theorem run_pop_drain (rest : List Chan) (hr : rest ≠ []) (cap len : Nat) (hl : 1 ≤ len) :
    run (List.replicate len Call.pop) ⟨⟨cap, len⟩ :: rest⟩ = .done ⟨rest⟩ := by
  have e : List.replicate len Call.pop = List.replicate (len - 1) Call.pop ++ [Call.pop] := by
    rw [← List.replicate_succ', show len - 1 + 1 = len by omega]
  rw [e, run_append, run_pop_replicate rest cap (len - 1) len (by omega)]
  show (Pop ⟨⟨cap, len - (len - 1)⟩ :: rest⟩).bind _ = _
  rw [Pop_cons, if_pos (show 0 < len - (len - 1) by omega), cleanupChannels_cons,
    if_pos ⟨hr, (show len - (len - 1) - 1 = 0 by omega)⟩]
  rfl

theorem CreateQueue_nat (c : Nat) : CreateQueue (c : Int) = .done ⟨[⟨c, 0⟩]⟩ := by
  rw [CreateQueue_nonneg (c : Int) (Int.ofNat_nonneg c)]
  simp

theorem SetCapacity_nat (init : List Chan) (ch : Chan) (n : Nat) :
    SetCapacity ⟨init ++ [ch]⟩ (n : Int) =
      .done (cleanupChannels
        (if ch.cap = n then ⟨init ++ [ch]⟩ else ⟨init ++ [ch] ++ [⟨n, 0⟩]⟩)) := by
  rw [SetCapacity_concat init ch (n : Int) (Int.ofNat_nonneg n)]
  simp

theorem SetCapacity_newest (q : queueImpl) (hne : q.channels ≠ []) (n : Int) (hn : 0 ≤ n) :
    ∃ init ch, SetCapacity q n = .done ⟨init ++ [ch]⟩ ∧ (ch.cap : Int) = n := by
  obtain ⟨init, ch, rfl⟩ := queue_eq_concat q hne
  rw [SetCapacity_concat init ch n hn]
  by_cases hcap : (ch.cap : Int) = n
  · rw [if_pos hcap]
    obtain ⟨init1, e, _⟩ := cleanupChannels_concat init ch
    exact ⟨init1, ch, by rw [e], hcap⟩
  · rw [if_neg hcap]
    obtain ⟨init1, e, _⟩ := cleanupChannels_concat (init ++ [ch]) ⟨n.toNat, 0⟩
    exact ⟨init1, ⟨n.toNat, 0⟩, by rw [e], Int.toNat_of_nonneg hn⟩

theorem SetCapacity_same (init : List Chan) (ch : Chan) (n : Int) (h : (ch.cap : Int) = n) :
    SetCapacity ⟨init ++ [ch]⟩ n = .done (cleanupChannels ⟨init ++ [ch]⟩) := by
  rw [SetCapacity_concat init ch n (by omega), if_pos h]

theorem Pop_blocked_iff (q : queueImpl) (hne : q.channels ≠ []) :
    Pop q = .blocked ↔ ∃ c0 rest, q.channels = c0 :: rest ∧ c0.len = 0 := by
  obtain ⟨l⟩ := q
  cases l with
  | nil => exact absurd rfl hne
  | cons c0 rest =>
    rw [Pop_cons]
    by_cases h : 0 < c0.len
    · rw [if_pos h]
      constructor
      · intro hb; cases hb
      · rintro ⟨c1, r1, e, h0⟩
        injection e with e1 _
        subst e1
        omega
    · rw [if_neg h]
      exact ⟨fun _ => ⟨c0, rest, rfl, by omega⟩, fun _ => rfl⟩

theorem Pop_blocked_of_Size_zero (q : queueImpl) (hne : q.channels ≠ []) (h : Size q = 0) :
    Pop q = .blocked := by
  rw [Pop_blocked_iff q hne]
  obtain ⟨l⟩ := q
  cases l with
  | nil => exact absurd rfl hne
  | cons c0 rest =>
    refine ⟨c0, rest, rfl, ?_⟩
    rw [Size_eq_sum] at h
    simp only [List.map_cons, List.sum_cons] at h
    have := sum_len_nonneg rest
    omega

/-! ## The claims -/

/-- C1: in every state reached from `CreateQueue(c)` by `Push`, `Pop` and
`SetCapacity` calls, `Size()` is at least 0 and at most the sum of the
capacities of the segments in the list, and each segment holds at most its own
capacity. -/
theorem C1_size_bounded (q : queueImpl) (h : Reachable q) :
    0 ≤ Size q ∧ Size q ≤ totalCapacity q ∧ ∀ ch ∈ q.channels, ch.len ≤ ch.cap := by
  have hw := WellFormed_of_Reachable q h
  rw [Size_eq_sum]
  exact ⟨sum_len_nonneg _, sum_len_le_sum_cap _ hw.2, hw.2⟩

theorem C1_size_bounded_witness :
    Reachable ⟨[⟨1, 1⟩, ⟨2, 2⟩]⟩ ∧ 0 ≤ Size ⟨[⟨1, 1⟩, ⟨2, 2⟩]⟩ ∧ Size ⟨[⟨1, 1⟩, ⟨2, 2⟩]⟩ ≤ totalCapacity ⟨[⟨1, 1⟩, ⟨2, 2⟩]⟩ ∧
      ∀ ch ∈ ([⟨1, 1⟩, ⟨2, 2⟩] : List Chan), ch.len ≤ ch.cap :=
  have hr : Reachable ⟨[⟨1, 1⟩, ⟨2, 2⟩]⟩ :=
    ⟨1, [.push, .setCapacity 2, .push, .push], by decide, by decide, by decide⟩
  ⟨hr, C1_size_bounded ⟨[⟨1, 1⟩, ⟨2, 2⟩]⟩ hr⟩

/-- C4: for every reachable queue state and every `n ≥ 0`, `SetCapacity(n)`
completes, `Size()` after the call equals `Size()` before it, and the
resulting list is the old list, possibly extended by one fresh empty segment
of capacity `n`, from which at most one segment was removed: the oldest one,
holding no tokens. -/
theorem C4_setCapacity_keeps_tokens (q : queueImpl) (hq : Reachable q) (n : Int)
    (hn : 0 ≤ n) :
    ∃ q1, SetCapacity q n = .done q1 ∧ Size q1 = Size q ∧
      ∃ pre, (pre = q.channels ∨ pre = q.channels ++ [⟨n.toNat, 0⟩]) ∧
        (q1.channels = pre ∨ ∃ c0, c0.len = 0 ∧ pre = c0 :: q1.channels) := by
  have hw := WellFormed_of_Reachable q hq
  obtain ⟨init, ch, rfl⟩ := queue_eq_concat q hw.1
  rw [SetCapacity_concat init ch n hn]
  refine ⟨_, rfl, ?_, ?_⟩
  · rw [Size_cleanupChannels]
    by_cases hc : (ch.cap : Int) = n
    · rw [if_pos hc]
    · rw [if_neg hc, Size_eq_sum, Size_eq_sum]
      simp
  · by_cases hc : (ch.cap : Int) = n
    · rw [if_pos hc]
      refine ⟨init ++ [ch], Or.inl rfl, ?_⟩
      rcases cleanupChannels_cases ⟨init ++ [ch]⟩ with e | ⟨c0, h0, e, _⟩
      · exact Or.inl e
      · exact Or.inr ⟨c0, h0, e⟩
    · rw [if_neg hc]
      refine ⟨init ++ [ch] ++ [⟨n.toNat, 0⟩], Or.inr rfl, ?_⟩
      rcases cleanupChannels_cases ⟨init ++ [ch] ++ [⟨n.toNat, 0⟩]⟩ with e | ⟨c0, h0, e, _⟩
      · exact Or.inl e
      · exact Or.inr ⟨c0, h0, e⟩

theorem C4_setCapacity_keeps_tokens_witness :
    Reachable ⟨[⟨1, 1⟩]⟩ ∧ (0 : Int) ≤ 2 ∧ ∃ q1, SetCapacity ⟨[⟨1, 1⟩]⟩ 2 = .done q1 ∧ Size q1 = Size ⟨[⟨1, 1⟩]⟩ ∧
      ∃ pre, (pre = [⟨1, 1⟩] ∨ pre = [⟨1, 1⟩] ++ [⟨(2 : Int).toNat, 0⟩]) ∧
        (q1.channels = pre ∨ ∃ c0, c0.len = 0 ∧ pre = c0 :: q1.channels) :=
  have hr : Reachable ⟨[⟨1, 1⟩]⟩ := ⟨1, [.push], by decide, by decide, by decide⟩
  ⟨hr, by decide, C4_setCapacity_keeps_tokens ⟨[⟨1, 1⟩]⟩ hr 2 (by decide)⟩

/-- C5: `CreateQueue(c).Capacity() = c` for every `c ≥ 0`, and for every
reachable queue state and every `n ≥ 0`, right after `SetCapacity(n)` the
newest segment has capacity `n` and `Capacity()` returns `n`, whatever the
older segments are. -/
theorem C5_capacity_is_last_request (c : Int) (hc : 0 ≤ c) (q : queueImpl)
    (hq : Reachable q) (n : Int) (hn : 0 ≤ n) :
    (CreateQueue c).bind Capacity = .done c ∧
      ∃ q1, SetCapacity q n = .done q1 ∧ Capacity q1 = .done n ∧
        ∃ init ch, q1.channels = init ++ [ch] ∧ (ch.cap : Int) = n := by
  constructor
  · rw [CreateQueue_nonneg c hc]
    show Capacity ⟨[] ++ [⟨c.toNat, 0⟩]⟩ = _
    rw [Capacity_concat]
    simp [Int.toNat_of_nonneg hc]
  · have hw := WellFormed_of_Reachable q hq
    obtain ⟨init, ch, rfl⟩ := queue_eq_concat q hw.1
    rw [SetCapacity_concat init ch n hn]
    refine ⟨_, rfl, ?_⟩
    by_cases hcap : (ch.cap : Int) = n
    · rw [if_pos hcap]
      obtain ⟨init1, e, _⟩ := cleanupChannels_concat init ch
      rw [e, Capacity_concat]
      exact ⟨by rw [hcap], init1, ch, rfl, hcap⟩
    · rw [if_neg hcap]
      obtain ⟨init1, e, _⟩ := cleanupChannels_concat (init ++ [ch]) ⟨n.toNat, 0⟩
      rw [e, Capacity_concat]
      have hcast : ((n.toNat : Nat) : Int) = n := Int.toNat_of_nonneg hn
      exact ⟨by simp [hcast], init1, ⟨n.toNat, 0⟩, rfl, hcast⟩

theorem C5_capacity_is_last_request_witness :
    (0 : Int) ≤ 1 ∧ Reachable ⟨[⟨1, 1⟩]⟩ ∧ (0 : Int) ≤ 2 ∧ (CreateQueue 1).bind Capacity = .done 1 ∧
      ∃ q1, SetCapacity ⟨[⟨1, 1⟩]⟩ 2 = .done q1 ∧ Capacity q1 = .done 2 ∧
        ∃ init ch, q1.channels = init ++ [ch] ∧ (ch.cap : Int) = 2 :=
  have hr : Reachable ⟨[⟨1, 1⟩]⟩ := ⟨1, [.push], by decide, by decide, by decide⟩
  ⟨by decide, hr, by decide,
    C5_capacity_is_last_request 1 (by decide) ⟨[⟨1, 1⟩]⟩ hr 2 (by decide)⟩

/-- C6: in every reachable queue state, `Push` completes exactly when the
newest segment holds fewer tokens than its capacity and blocks otherwise; when
it completes, the newest segment has one more token, every other segment is
untouched, `Size()` is one higher and `Capacity()` is unchanged; a newest
segment of capacity 0 admits nothing. -/
theorem C6_push (q : queueImpl) (hq : Reachable q) :
    ∃ init ch, q.channels = init ++ [ch] ∧
      ((∃ q1, Push q = .done q1) ↔ ch.len < ch.cap) ∧
      (Push q = .blocked ↔ ¬ ch.len < ch.cap) ∧
      (∀ q1, Push q = .done q1 →
        q1.channels = init ++ [⟨ch.cap, ch.len + 1⟩] ∧ Size q1 = Size q + 1 ∧
          Capacity q1 = Capacity q) ∧
      (ch.cap = 0 → Push q = .blocked) := by
  have hw := WellFormed_of_Reachable q hq
  obtain ⟨init, ch, rfl⟩ := queue_eq_concat q hw.1
  refine ⟨init, ch, rfl, ?_, ?_, ?_, ?_⟩
  · rw [Push_concat]
    by_cases hlt : ch.len < ch.cap
    · simp [hlt]
    · simp [hlt]
  · rw [Push_concat]
    by_cases hlt : ch.len < ch.cap
    · simp [hlt]
    · simp [hlt]
  · intro q1 hp
    rw [Push_concat] at hp
    by_cases hlt : ch.len < ch.cap
    · rw [if_pos hlt] at hp
      injection hp with hp
      subst hp
      refine ⟨rfl, ?_, ?_⟩
      · rw [Size_eq_sum, Size_eq_sum]
        simp
        omega
      · rw [Capacity_concat, Capacity_concat]
    · rw [if_neg hlt] at hp
      cases hp
  · intro h0
    rw [Push_concat, if_neg (by omega)]

theorem C6_push_witness :
    Reachable ⟨[⟨1, 1⟩, ⟨2, 1⟩]⟩ ∧ ∃ init ch, ([⟨1, 1⟩, ⟨2, 1⟩] : List Chan) = init ++ [ch] ∧
      ((∃ q1, Push ⟨[⟨1, 1⟩, ⟨2, 1⟩]⟩ = .done q1) ↔ ch.len < ch.cap) ∧
      (Push ⟨[⟨1, 1⟩, ⟨2, 1⟩]⟩ = .blocked ↔ ¬ ch.len < ch.cap) ∧
      (∀ q1, Push ⟨[⟨1, 1⟩, ⟨2, 1⟩]⟩ = .done q1 →
        q1.channels = init ++ [⟨ch.cap, ch.len + 1⟩] ∧
          Size q1 = Size ⟨[⟨1, 1⟩, ⟨2, 1⟩]⟩ + 1 ∧
          Capacity q1 = Capacity ⟨[⟨1, 1⟩, ⟨2, 1⟩]⟩) ∧
      (ch.cap = 0 → Push ⟨[⟨1, 1⟩, ⟨2, 1⟩]⟩ = .blocked) :=
  have hr : Reachable ⟨[⟨1, 1⟩, ⟨2, 1⟩]⟩ :=
    ⟨1, [.push, .setCapacity 2, .push], by decide, by decide, by decide⟩
  ⟨hr, C6_push ⟨[⟨1, 1⟩, ⟨2, 1⟩]⟩ hr⟩

/-- C10: for every `c ≥ 0`, `CreateQueue(c)` yields a queue with exactly one
segment; in every reachable state the segment list is not empty, none of
`Push`, `Pop`, `Capacity` and `SetCapacity(n)` with `n ≥ 0` panics on an index
out of range, and every completed call leaves at least one segment. -/
theorem C10_segments_never_empty (c : Int) (hc : 0 ≤ c) (q : queueImpl)
    (hq : Reachable q) :
    (∃ q0, CreateQueue c = .done q0 ∧ q0.channels.length = 1) ∧
      q.channels ≠ [] ∧
      Push q ≠ .panics ∧ Pop q ≠ .panics ∧ Capacity q ≠ .panics ∧
      (∀ n, 0 ≤ n → SetCapacity q n ≠ .panics) ∧
      (∀ call q1, step call q = .done q1 → q1.channels ≠ []) := by
  have hw := WellFormed_of_Reachable q hq
  refine ⟨⟨_, CreateQueue_nonneg c hc, rfl⟩, hw.1, ?_, ?_, ?_, ?_, ?_⟩
  · obtain ⟨init, ch, rfl⟩ := queue_eq_concat q hw.1
    rw [Push_concat]
    split <;> simp
  · obtain ⟨l⟩ := q
    cases l with
    | nil => exact absurd rfl hw.1
    | cons c0 rest =>
      rw [Pop_cons]
      split <;> simp
  · obtain ⟨init, ch, rfl⟩ := queue_eq_concat q hw.1
    rw [Capacity_concat]
    simp
  · intro n hn
    obtain ⟨init, ch, rfl⟩ := queue_eq_concat q hw.1
    rw [SetCapacity_concat init ch n hn]
    simp
  · intro call q1 hs
    exact (WellFormed_step call q q1 hw hs).1

theorem C10_segments_never_empty_witness :
    (0 : Int) ≤ 0 ∧ Reachable ⟨[⟨0, 0⟩]⟩ ∧ (∃ q0, CreateQueue 0 = .done q0 ∧ q0.channels.length = 1) ∧
      ([⟨0, 0⟩] : List Chan) ≠ [] ∧
      Push ⟨[⟨0, 0⟩]⟩ ≠ .panics ∧ Pop ⟨[⟨0, 0⟩]⟩ ≠ .panics ∧
      Capacity ⟨[⟨0, 0⟩]⟩ ≠ .panics ∧
      (∀ n, 0 ≤ n → SetCapacity ⟨[⟨0, 0⟩]⟩ n ≠ .panics) ∧
      (∀ call q1, step call ⟨[⟨0, 0⟩]⟩ = .done q1 → q1.channels ≠ []) :=
  have hr : Reachable ⟨[⟨0, 0⟩]⟩ :=
    ⟨1, [.push, .setCapacity 0, .pop], by decide, by decide, by decide⟩
  ⟨by decide, hr, C10_segments_never_empty 0 (by decide) ⟨[⟨0, 0⟩]⟩ hr⟩

/-- C7: for `c ≥ 1`, `n ≥ 1`, `n ≠ c`: after `CreateQueue(c)`, `c` pushes and
`SetCapacity(n)` the queue is the full old segment followed by an empty new
one and `Capacity() = n`; `n` further pushes complete, giving `Size() = c + n`,
and the next push blocks; then `c` pops drain and retire the old segment,
`c + n` pops complete in all, and the following pop blocks. -/
theorem C7_resize_full_queue (c n : Nat) (hc : 1 ≤ c) (_hn : 1 ≤ n) (hne : n ≠ c) :
    runFrom (c : Int) (List.replicate c Call.push ++ [Call.setCapacity (n : Int)]) =
        .done ⟨[⟨c, c⟩, ⟨n, 0⟩]⟩ ∧
      Capacity ⟨[⟨c, c⟩, ⟨n, 0⟩]⟩ = .done (n : Int) ∧
      run (List.replicate n Call.push) ⟨[⟨c, c⟩, ⟨n, 0⟩]⟩ = .done ⟨[⟨c, c⟩, ⟨n, n⟩]⟩ ∧
      Size ⟨[⟨c, c⟩, ⟨n, n⟩]⟩ = (c : Int) + (n : Int) ∧
      Push ⟨[⟨c, c⟩, ⟨n, n⟩]⟩ = .blocked ∧
      run (List.replicate c Call.pop) ⟨[⟨c, c⟩, ⟨n, n⟩]⟩ = .done ⟨[⟨n, n⟩]⟩ ∧
      run (List.replicate (c + n) Call.pop) ⟨[⟨c, c⟩, ⟨n, n⟩]⟩ = .done ⟨[⟨n, 0⟩]⟩ ∧
      Pop ⟨[⟨n, 0⟩]⟩ = .blocked := by
  have hdrain : run (List.replicate c Call.pop) ⟨[⟨c, c⟩, ⟨n, n⟩]⟩ = .done ⟨[⟨n, n⟩]⟩ :=
    run_pop_drain [⟨n, n⟩] (by simp) c c hc
  refine ⟨?_, ?_, ?_, ?_, ?_, hdrain, ?_, ?_⟩
  · unfold runFrom
    rw [CreateQueue_nat]
    show run _ ⟨[] ++ [⟨c, 0⟩]⟩ = _
    rw [run_append, run_push_replicate [] c c 0 (by omega), Nat.zero_add]
    show run [Call.setCapacity (n : Int)] ⟨[] ++ [⟨c, c⟩]⟩ = _
    rw [run_single]
    show SetCapacity ⟨[] ++ [⟨c, c⟩]⟩ (n : Int) = _
    rw [SetCapacity_nat, if_neg (fun h => hne h.symm)]
    show Outcome.done (cleanupChannels ⟨⟨c, c⟩ :: [⟨n, 0⟩]⟩) = _
    rw [cleanupChannels_cons, if_neg (by simp only [not_and]; intro _; omega)]
  · exact Capacity_concat [⟨c, c⟩] ⟨n, 0⟩
  · have h := run_push_replicate [⟨c, c⟩] n n 0 (by omega)
    rw [Nat.zero_add] at h
    exact h
  · rw [Size_eq_sum]
    simp
  · have h := Push_concat [⟨c, c⟩] ⟨n, n⟩
    rw [if_neg (by simp)] at h
    exact h
  · rw [List.replicate_add, run_append, hdrain]
    show run (List.replicate n Call.pop) ⟨[⟨n, n⟩]⟩ = _
    rw [run_pop_replicate_single n n n (Nat.le_refl n), Nat.sub_self]
  · rw [Pop_cons, if_neg (by simp)]

theorem C7_resize_full_queue_witness :
    1 ≤ 1 ∧ 1 ≤ 2 ∧ 2 ≠ 1 ∧ runFrom ((1 : Nat) : Int) (List.replicate 1 Call.push ++ [Call.setCapacity ((2 : Nat) : Int)]) =
        .done ⟨[⟨1, 1⟩, ⟨2, 0⟩]⟩ ∧
      Capacity ⟨[⟨1, 1⟩, ⟨2, 0⟩]⟩ = .done ((2 : Nat) : Int) ∧
      run (List.replicate 2 Call.push) ⟨[⟨1, 1⟩, ⟨2, 0⟩]⟩ = .done ⟨[⟨1, 1⟩, ⟨2, 2⟩]⟩ ∧
      Size ⟨[⟨1, 1⟩, ⟨2, 2⟩]⟩ = ((1 : Nat) : Int) + ((2 : Nat) : Int) ∧
      Push ⟨[⟨1, 1⟩, ⟨2, 2⟩]⟩ = .blocked ∧
      run (List.replicate 1 Call.pop) ⟨[⟨1, 1⟩, ⟨2, 2⟩]⟩ = .done ⟨[⟨2, 2⟩]⟩ ∧
      run (List.replicate (1 + 2) Call.pop) ⟨[⟨1, 1⟩, ⟨2, 2⟩]⟩ = .done ⟨[⟨2, 0⟩]⟩ ∧
      Pop ⟨[⟨2, 0⟩]⟩ = .blocked :=
  ⟨by decide, by decide, by decide,
    C7_resize_full_queue 1 2 (by decide) (by decide) (by decide)⟩

/-- C9: for `c ≥ 1`, `0 ≤ k ≤ c`, `n ≥ 1`, `n ≠ c`: after `CreateQueue(c)`,
`k` pushes and `k` pops the queue still has its single, now empty, segment of
capacity `c`; `SetCapacity(n)` then leaves exactly one segment, empty and of
capacity `n`; and a `Push` followed by a `Pop` both complete. -/
theorem C9_resize_drained_queue (c k n : Nat) (_hc : 1 ≤ c) (hk : k ≤ c) (hn : 1 ≤ n)
    (hne : n ≠ c) :
    runFrom (c : Int) (List.replicate k Call.push ++ List.replicate k Call.pop) =
        .done ⟨[⟨c, 0⟩]⟩ ∧
      runFrom (c : Int) (List.replicate k Call.push ++ List.replicate k Call.pop ++
        [Call.setCapacity (n : Int)]) = .done ⟨[⟨n, 0⟩]⟩ ∧
      Push ⟨[⟨n, 0⟩]⟩ = .done ⟨[⟨n, 1⟩]⟩ ∧
      Pop ⟨[⟨n, 1⟩]⟩ = .done ⟨[⟨n, 0⟩]⟩ := by
  have h1 : runFrom (c : Int) (List.replicate k Call.push ++ List.replicate k Call.pop) =
      .done ⟨[⟨c, 0⟩]⟩ := by
    unfold runFrom
    rw [CreateQueue_nat]
    show run _ ⟨[] ++ [⟨c, 0⟩]⟩ = _
    rw [run_append, run_push_replicate [] c k 0 (by omega), Nat.zero_add]
    show run (List.replicate k Call.pop) ⟨[⟨c, k⟩]⟩ = _
    rw [run_pop_replicate_single c k k (Nat.le_refl k), Nat.sub_self]
  refine ⟨h1, ?_, ?_, ?_⟩
  · unfold runFrom at h1 ⊢
    rw [CreateQueue_nat] at h1 ⊢
    show run _ ⟨[⟨c, 0⟩]⟩ = _
    rw [run_append]
    have h2 : run (List.replicate k Call.push ++ List.replicate k Call.pop) ⟨[⟨c, 0⟩]⟩ =
        .done ⟨[⟨c, 0⟩]⟩ := h1
    rw [h2]
    show run [Call.setCapacity (n : Int)] ⟨[] ++ [⟨c, 0⟩]⟩ = _
    rw [run_single]
    show SetCapacity ⟨[] ++ [⟨c, 0⟩]⟩ (n : Int) = _
    rw [SetCapacity_nat, if_neg (fun h => hne h.symm)]
    show Outcome.done (cleanupChannels ⟨⟨c, 0⟩ :: [⟨n, 0⟩]⟩) = _
    rw [cleanupChannels_cons, if_pos ⟨by simp, rfl⟩]
  · have h := Push_concat [] ⟨n, 0⟩
    rw [if_pos (show 0 < n by omega)] at h
    exact h
  · rw [Pop_cons, if_pos (by simp), cleanupChannels_single]
    rfl

theorem C9_resize_drained_queue_witness :
    1 ≤ 1 ∧ 1 ≤ 1 ∧ 1 ≤ 2 ∧ 2 ≠ 1 ∧ runFrom ((1 : Nat) : Int) (List.replicate 1 Call.push ++ List.replicate 1 Call.pop) =
        .done ⟨[⟨1, 0⟩]⟩ ∧
      runFrom ((1 : Nat) : Int) (List.replicate 1 Call.push ++ List.replicate 1 Call.pop ++
        [Call.setCapacity ((2 : Nat) : Int)]) = .done ⟨[⟨2, 0⟩]⟩ ∧
      Push ⟨[⟨2, 0⟩]⟩ = .done ⟨[⟨2, 1⟩]⟩ ∧
      Pop ⟨[⟨2, 1⟩]⟩ = .done ⟨[⟨2, 0⟩]⟩ :=
  ⟨by decide, by decide, by decide, by decide,
    C9_resize_drained_queue 1 1 2 (by decide) (by decide) (by decide) (by decide)⟩

/-- C2, as stated, fails: `CreateQueue(1)`, `Push`, `SetCapacity(2)`, `Push`,
`Push` only grows the capacity, every call completes, and the state reached
has `Size() = 3` and `Capacity() = 2`. -/
theorem C2_counterexample :
    CreateQueue 1 = .done ⟨[⟨1, 0⟩]⟩ ∧
      growOnly [.push, .setCapacity 2, .push, .push] ⟨[⟨1, 0⟩]⟩ = true ∧
      run [.push, .setCapacity 2, .push, .push] ⟨[⟨1, 0⟩]⟩ = .done ⟨[⟨1, 1⟩, ⟨2, 2⟩]⟩ ∧
      Size ⟨[⟨1, 1⟩, ⟨2, 2⟩]⟩ = 3 ∧
      Capacity ⟨[⟨1, 1⟩, ⟨2, 2⟩]⟩ = .done 2 ∧
      ¬ Size ⟨[⟨1, 1⟩, ⟨2, 2⟩]⟩ ≤ 2 := by
  decide

/-- C2, amended: in every reachable state the newest segment holds at most
`Capacity()` tokens, that is `Size()` is at most `Capacity()` plus the tokens
still held by older segments; so `Size() ≤ Capacity()` whenever the older
segments hold no tokens, in particular when the list has a single segment. -/
theorem C2_size_le_capacity_plus_older (q : queueImpl) (hq : Reachable q) :
    ∃ cur, Capacity q = .done cur ∧ Size q ≤ cur + olderTokens q ∧
      (olderTokens q = 0 → Size q ≤ cur) ∧
      (q.channels.length = 1 → Size q ≤ cur) := by
  have hw := WellFormed_of_Reachable q hq
  obtain ⟨init, ch, rfl⟩ := queue_eq_concat q hw.1
  have hle : ch.len ≤ ch.cap := hw.2 ch (by simp)
  have hs : Size ⟨init ++ [ch]⟩ = olderTokens ⟨init ++ [ch]⟩ + (ch.len : Int) := by
    rw [Size_eq_sum]
    unfold olderTokens
    simp
  refine ⟨(ch.cap : Int), Capacity_concat init ch, ?_, ?_, ?_⟩
  · omega
  · intro h0
    omega
  · intro h1
    have hi : init = [] := by
      cases init with
      | nil => rfl
      | cons a l => simp at h1
    subst hi
    have h0 : olderTokens ⟨[] ++ [ch]⟩ = 0 := rfl
    omega

theorem C2_size_le_capacity_plus_older_witness :
    Reachable ⟨[⟨1, 1⟩, ⟨2, 2⟩]⟩ ∧ ∃ cur, Capacity ⟨[⟨1, 1⟩, ⟨2, 2⟩]⟩ = .done cur ∧
      Size ⟨[⟨1, 1⟩, ⟨2, 2⟩]⟩ ≤ cur + olderTokens ⟨[⟨1, 1⟩, ⟨2, 2⟩]⟩ ∧
      (olderTokens ⟨[⟨1, 1⟩, ⟨2, 2⟩]⟩ = 0 → Size ⟨[⟨1, 1⟩, ⟨2, 2⟩]⟩ ≤ cur) ∧
      (([⟨1, 1⟩, ⟨2, 2⟩] : List Chan).length = 1 → Size ⟨[⟨1, 1⟩, ⟨2, 2⟩]⟩ ≤ cur) :=
  have hr : Reachable ⟨[⟨1, 1⟩, ⟨2, 2⟩]⟩ :=
    ⟨1, [.push, .setCapacity 2, .push, .push], by decide, by decide, by decide⟩
  ⟨hr, C2_size_le_capacity_plus_older ⟨[⟨1, 1⟩, ⟨2, 2⟩]⟩ hr⟩

/-- C3, at the failing input: after `CreateQueue(1)`, `Push`, `SetCapacity(2)`,
`SetCapacity(3)`, `Pop`, `Push` every call has completed, the queue is an
empty segment of capacity 2 followed by a segment of capacity 3 holding one
token, `Size() = 1`, and `Pop` blocks. -/
theorem C3_pop_blocks_with_token_held :
    runFrom 1 [.push, .setCapacity 2, .setCapacity 3, .pop, .push] =
        .done ⟨[⟨2, 0⟩, ⟨3, 1⟩]⟩ ∧
      Size ⟨[⟨2, 0⟩, ⟨3, 1⟩]⟩ = 1 ∧
      Pop ⟨[⟨2, 0⟩, ⟨3, 1⟩]⟩ = .blocked := by
  decide

/-- C8, as stated, fails: after `CreateQueue(1)`, `Push`, `SetCapacity(2)`,
`SetCapacity(3)`, `Pop` the list is two empty segments of capacities 2 and 3;
the first `SetCapacity(4)` leaves the segments of capacities 3 and 4, and the
second `SetCapacity(4)` leaves only the segment of capacity 4. -/
theorem C8_counterexample :
    runFrom 1 [.push, .setCapacity 2, .setCapacity 3, .pop] =
        .done ⟨[⟨2, 0⟩, ⟨3, 0⟩]⟩ ∧
      SetCapacity ⟨[⟨2, 0⟩, ⟨3, 0⟩]⟩ 4 = .done ⟨[⟨3, 0⟩, ⟨4, 0⟩]⟩ ∧
      SetCapacity ⟨[⟨3, 0⟩, ⟨4, 0⟩]⟩ 4 = .done ⟨[⟨4, 0⟩]⟩ ∧
      (⟨[⟨4, 0⟩]⟩ : queueImpl) ≠ ⟨[⟨3, 0⟩, ⟨4, 0⟩]⟩ := by
  decide

/-- C8, amended: for every reachable state and every `n ≥ 0`, a second
`SetCapacity(n)` right after `SetCapacity(n)` completes, appends no segment
and changes neither `Size()` nor `Capacity()`; the list it leaves is the list
the first call left, or that list without its oldest segment when that
segment is empty and not the only one; it is exactly the list the first call
left when that list has a single segment or a non-empty oldest segment. -/
theorem C8_repeat_setCapacity (q : queueImpl) (hq : Reachable q) (n : Int) (hn : 0 ≤ n) :
    ∃ q1 q2, SetCapacity q n = .done q1 ∧ SetCapacity q1 n = .done q2 ∧
      Size q2 = Size q1 ∧ Capacity q2 = Capacity q1 ∧
      (q2.channels = q1.channels ∨
        ∃ c0, c0.len = 0 ∧ q1.channels = c0 :: q2.channels ∧ q2.channels ≠ []) ∧
      (∀ c0 rest, q1.channels = c0 :: rest → rest = [] ∨ 0 < c0.len → q2 = q1) := by
  have hw := WellFormed_of_Reachable q hq
  obtain ⟨init, ch, h1, hcap⟩ := SetCapacity_newest q hw.1 n hn
  refine ⟨⟨init ++ [ch]⟩, cleanupChannels ⟨init ++ [ch]⟩, h1,
    SetCapacity_same init ch n hcap, Size_cleanupChannels _, ?_, ?_, ?_⟩
  · obtain ⟨init1, e, _⟩ := cleanupChannels_concat init ch
    rw [e, Capacity_concat, Capacity_concat]
  · rcases cleanupChannels_cases ⟨init ++ [ch]⟩ with e | ⟨c0, h0, e, hne⟩
    · exact Or.inl e
    · exact Or.inr ⟨c0, h0, e, hne⟩
  · intro c0 rest e hcase
    have e1 : (⟨init ++ [ch]⟩ : queueImpl) = ⟨c0 :: rest⟩ := by
      show (⟨(⟨init ++ [ch]⟩ : queueImpl).channels⟩ : queueImpl) = _
      rw [e]
    rw [e1, cleanupChannels_cons, if_neg]
    rintro ⟨hr, h0⟩
    rcases hcase with hcase | hcase
    · exact hr hcase
    · omega

theorem C8_repeat_setCapacity_witness :
    Reachable ⟨[⟨2, 0⟩, ⟨3, 0⟩]⟩ ∧ (0 : Int) ≤ 4 ∧ ∃ q1 q2, SetCapacity ⟨[⟨2, 0⟩, ⟨3, 0⟩]⟩ 4 = .done q1 ∧ SetCapacity q1 4 = .done q2 ∧
      Size q2 = Size q1 ∧ Capacity q2 = Capacity q1 ∧
      (q2.channels = q1.channels ∨
        ∃ c0, c0.len = 0 ∧ q1.channels = c0 :: q2.channels ∧ q2.channels ≠ []) ∧
      (∀ c0 rest, q1.channels = c0 :: rest → rest = [] ∨ 0 < c0.len → q2 = q1) :=
  have hr : Reachable ⟨[⟨2, 0⟩, ⟨3, 0⟩]⟩ :=
    ⟨1, [.push, .setCapacity 2, .setCapacity 3, .pop], by decide, by decide, by decide⟩
  ⟨hr, by decide, C8_repeat_setCapacity ⟨[⟨2, 0⟩, ⟨3, 0⟩]⟩ hr 4 (by decide)⟩

end Nckl
